import Mathlib

/-!
Verification of the android_builder build script (src/build.ts and its
variant).  Strings are modelled as `List Char`; the HTML injection step,
the plugin merge, the icon walk, the artifact retrieval and the polling
monitor are embedded as executable Lean functions translated from the
TypeScript source, and the specified properties are settled against them.
-/

set_option maxHeartbeats 1000000
set_option maxRecDepth 4000

/-! Markers and snippets of the HTML injection step

Taken verbatim from `processProject` (src/unnamed/part_000 lines 80-89,
src/build.ts lines 125-140). -/

/-- Start marker of the injection region. -/
def startMarker : List Char := ("<!-- INJECT_START -->").data

/-- End marker of the injection region. -/
def endMarker : List Char := ("<!-- INJECT_END -->").data

/-- The head-closing tag the code replaces to insert the region. -/
def headClose : List Char := ("</head>").data

/-- The vConsole (debug console) snippet, appended when the debug option is on. -/
def vconsoleSnippet : List Char :=
  ("<script src=\"https://cdn.jsdelivr.net/npm/vconsole@latest/dist/vconsole.min.js\"></script>\n<script>new VConsole();</script>\n").data

/-- The safe-area style snippet, appended when the safe-area option is on. -/
def safeAreaSnippet : List Char :=
  ("<style>body\x7bpadding: env(safe-area-inset-top) env(safe-area-inset-right) env(safe-area-inset-bottom) env(safe-area-inset-left);\x7d</style>\n").data

/-- Locate the first occurrence of `pat` in `s`: returns the part before the
occurrence and the part after it.  This is the search behaviour of both
JavaScript `String.replace` with a string pattern and of a non-greedy
regular expression match. -/
def splitFirst (pat : List Char) : List Char → Option (List Char × List Char)
  | [] => if pat.isPrefixOf ([] : List Char) then some ([], []) else none
  | c :: rest =>
    if pat.isPrefixOf (c :: rest) then some ([], (c :: rest).drop pat.length)
    else (splitFirst pat rest).map (fun p => (c :: p.1, p.2))

/-- One global-regex removal pass of
`/<!-- INJECT_START -->[\s\S]*?<!-- INJECT_END -->/g`: repeatedly find the
next start marker, then the next end marker after it, delete the region
inclusive, and continue after it.  The fuel argument only bounds the
recursion; `removeBlocks` supplies enough fuel for it never to run out. -/
def removeBlocksAux (fuel : Nat) (s : List Char) : List Char :=
  match fuel with
  | 0 => s
  | fuel + 1 =>
    match splitFirst startMarker s with
    | none => s
    | some (a, rest) =>
      match splitFirst endMarker rest with
      | none => s
      | some (_, rest2) => a ++ removeBlocksAux fuel rest2

/-- Remove every complete injection region from `s`
(`html.replace(/<!-- INJECT_START -->[\s\S]*?<!-- INJECT_END -->/g, "")`). -/
def removeBlocks (s : List Char) : List Char := removeBlocksAux s.length s

/-- The freshly built injection region: start marker, newline, the debug
snippet iff `debug`, the safe-area snippet iff `safeArea`, end marker. -/
def injBlock (debug safeArea : Bool) : List Char :=
  startMarker ++ '\n' ::
    ((if debug then vconsoleSnippet else []) ++
     (if safeArea then safeAreaSnippet else []) ++ endMarker)

/-- JavaScript `String.replace` with a string pattern: replace the first
occurrence of `pat` by `repl`, or return `s` unchanged if there is none. -/
def replaceFirst (pat repl s : List Char) : List Char :=
  match splitFirst pat s with
  | none => s
  | some (a, b) => a ++ repl ++ b

/-- The injection operation of `processProject`: strip every existing
injection region, then replace the first `</head>` by the new region
followed by a newline and `</head>`. -/
def inject (debug safeArea : Bool) (html : List Char) : List Char :=
  replaceFirst headClose (injBlock debug safeArea ++ '\n' :: headClose)
    (removeBlocks html)

/-- Number of non-overlapping occurrences of `pat` in `s`, scanning left to
right (property-side definition, used to state marker uniqueness). -/
def countOccAux (pat : List Char) (fuel : Nat) (s : List Char) : Nat :=
  match fuel with
  | 0 => 0
  | fuel + 1 =>
    match splitFirst pat s with
    | none => 0
    | some (_, b) => 1 + countOccAux pat fuel b

/-- Number of non-overlapping occurrences of `pat` in `s`. -/
def countOcc (pat : List Char) (s : List Char) : Nat := countOccAux pat s.length s

/-- The interior of an injection region (everything between the start and the
end marker): a newline, then the optional snippets. -/
def midBlock (debug safeArea : Bool) : List Char :=
  '\n' :: ((if debug then vconsoleSnippet else []) ++
    (if safeArea then safeAreaSnippet else []))

/-! Plugin merge (`processProject`, src/unnamed/part_000 lines 70-73,
src/build.ts lines 100-108) -/

/-- A `<plugin>` element of the manifest: a name and a version spec. -/
structure Plugin where
  name : String
  spec : String
  deriving DecidableEq

/-- The plugin merge: the names currently declared are computed once, and
each required plugin whose name is not among them is appended (with the
sentinel spec "latest"), in the order of `required`. -/
def mergePlugins (plugins : List Plugin) (required : List String) : List Plugin :=
  let current := plugins.map (fun p => p.name)
  plugins ++
    (required.filter (fun p => !(current.contains p))).map
      (fun p => (⟨p, "latest"⟩ : Plugin))

/-! Artifact retrieval (`runBuild`, src/unnamed/part_000 lines 124-129,
src/build.ts lines 186-193) -/

/-- An artifact entry of the remote listing. -/
structure Artifact where
  name : String
  archive_download_url : String
  deriving DecidableEq

/-- Lookup `arts.artifacts.find(a => a.name === CONFIG.artifactName)`: first entry
whose name equals the target exactly, or none. -/
def resolveArtifact (artifacts : List Artifact) (target : String) :
    Option Artifact :=
  artifacts.find? (fun a => a.name == target)

/-- The failure modes that can escape `runBuild` into its top-level catch. -/
inductive JsError where
  | typeError : String → JsError
  | buildFailed : String → JsError
  deriving DecidableEq

/-- Reading `art.archive_download_url`: when the lookup found no artifact,
`art` is `undefined` and the property access throws a generic TypeError
(the code performs no missing-artifact check). -/
def artifactUrl (artifacts : List Artifact) (target : String) :
    Except JsError String :=
  match resolveArtifact artifacts target with
  | some a => Except.ok a.archive_download_url
  | none =>
    Except.error (JsError.typeError
      "cannot read archive_download_url of undefined")

/-! Download, extract, unlink (src/unnamed/part_000 lines 126-129,
src/build.ts lines 190-193) -/

/-- File-system actions of the retrieval tail of `runBuild`. -/
inductive FsAction where
  | writeTemp
  | extract
  | unlinkTemp
  deriving DecidableEq

/-- The straight-line sequence `Bun.write(zipPath, ...)"; await extract;
fs.unlinkSync(zipPath)`.  A rejected extraction promise propagates out of
the `await` before `unlinkSync` runs, so the unlink action is only reached
when extraction succeeds. -/
def fetchAndExtract (extractSucceeds : Bool) :
    List FsAction × Except String Unit :=
  if extractSucceeds then
    ([FsAction.writeTemp, FsAction.extract, FsAction.unlinkTemp],
      Except.ok ())
  else
    ([FsAction.writeTemp, FsAction.extract], Except.error "extract failed")

/-- Whether the temporary archive exists after the trace: created by
`writeTemp`, destroyed by `unlinkTemp`. -/
def tempExistsAfter (trace : List FsAction) : Bool :=
  trace.foldl
    (fun state a =>
      match a with
      | FsAction.writeTemp => true
      | FsAction.unlinkTemp => false
      | FsAction.extract => state)
    false

/-! Polling monitor (`runBuild`, src/unnamed/part_000 lines 106-121,
src/build.ts lines 157-182) -/

/-- One poll response: `{status, conclusion}` of the run detail API. -/
structure PollResponse where
  status : String
  conclusion : Option String
  deriving DecidableEq

/-- Terminal classification of a monitor session. -/
inductive Outcome where
  | success
  | failed
  | pending
  deriving DecidableEq

/-- Update rule `if (progress < 95) progress += (95 - progress) * 0.15;` with the
stated update rule read as exact rational arithmetic. -/
def progressStep (p : ℚ) : ℚ :=
  if p < 95 then p + (95 - p) * (15 / 100) else p

/-- The polling loop, driven by the list of responses the remote service
would return to successive polls.  Returns the emitted progress values
(including the hard-coded final `100%` line printed after the loop on
completion), the outcome, and how many polls were performed.  An exhausted
response list while the loop would still be polling is reported as
`Outcome.pending`. -/
def runMonitor : List PollResponse → ℚ → List ℚ × Outcome × Nat
  | [], _ => ([], Outcome.pending, 0)
  | r :: rest, p =>
    if r.conclusion == some "failure" then ([], Outcome.failed, 1)
    else
      let q := progressStep p
      if r.status == "completed" then ([q, 100], Outcome.success, 1)
      else
        let res := runMonitor rest q
        (q :: res.1, res.2.1, res.2.2 + 1)

/-! Icon collection (`findIcons`, src/unnamed/part_000 lines 52-57,
src/build.ts lines 65-76) -/

mutual
/-- A node of the parsed manifest as the code sees it: the `src` attributes
of its `icon` children (in order; `none` when the attribute is absent) and
its `platform` children subtrees (in order). -/
inductive XNode where
  | mk : List (Option String) → XForest → XNode
/-- A sequence of `platform` subtrees. -/
inductive XForest where
  | nil : XForest
  | cons : XNode → XForest → XForest
end

/-- Truthiness test `i.$.src && icons.push(i.$.src)`: an icon contributes its `src` only
when the attribute is present and truthy (a non-empty string). -/
def srcOf (attr : Option String) : Option String :=
  match attr with
  | some s => if s = "" then none else some s
  | none => none

/-- The `src` values a node's own icon children contribute. -/
def srcs (iconAttrs : List (Option String)) : List String :=
  iconAttrs.filterMap srcOf

mutual
/-- The recursive icon walk of `processProject`: own icons first, then the
walk of every platform subtree, concatenated in order. -/
def findIcons : XNode → List String
  | XNode.mk icons platforms => srcs icons ++ findIconsF platforms
/-- The walk concatenated over a sequence of subtrees. -/
def findIconsF : XForest → List String
  | XForest.nil => []
  | XForest.cons n rest => findIcons n ++ findIconsF rest
end

/-- Concatenation of forests. -/
def forestAppend : XForest → XForest → XForest
  | XForest.nil, g => g
  | XForest.cons n f, g => XForest.cons n (forestAppend f g)

mutual
/-- Number of nodes in a tree. -/
def sizeN : XNode → Nat
  | XNode.mk _ platforms => 1 + sizeF platforms
/-- Number of nodes in a forest. -/
def sizeF : XForest → Nat
  | XForest.nil => 0
  | XForest.cons n rest => sizeN n + sizeF rest
end

/-- Spec-side definition (for the refinement in claim C6): a generic
worklist-driven depth-first traversal in document order, collecting icon
`src` attributes at any depth; the fuel is only a recursion bound and
`collectIconPathsSpec` supplies enough for it never to run out. -/
def collectIconPathsSpecAux : Nat → XForest → List String
  | 0, _ => []
  | _ + 1, XForest.nil => []
  | fuel + 1, XForest.cons (XNode.mk icons platforms) rest =>
    srcs icons ++ collectIconPathsSpecAux fuel (forestAppend platforms rest)

/-- Spec-side depth-first document-order icon collection. -/
def collectIconPathsSpec (worklist : XForest) : List String :=
  collectIconPathsSpecAux (sizeF worklist) worklist

/-- The concrete manifest of the icon-collection scenario: an icon at the
root, a platform holding two icons (one a duplicate of the root icon) and
a nested platform with its own icon, and a second platform whose icon list
also has an absent and an empty `src`. -/
def exampleWidget : XNode :=
  XNode.mk [some "res/icon.png"]
    (XForest.cons
      (XNode.mk [some "res/android/icon.png", some "res/icon.png"]
        (XForest.cons (XNode.mk [some "res/nested.png"] XForest.nil)
          XForest.nil))
      (XForest.cons
        (XNode.mk [none, some "", some "res/ios/icon.png"] XForest.nil)
        XForest.nil))

/-! Attribute-faithful icon model for claim C10.  xml2js creates the `$`
attribute object of a parsed element only when the element has attributes;
a bare `<icon/>` is represented as an empty string with no `$` object, so
on such an entry `i.$.src` throws a TypeError instead of being skipped.
The tag-grouped `XNode` model above cannot represent that case, so the
walk is re-embedded here over entries that can. -/

/-- One entry of a node's `icon` array as xml2js delivers it: either an
element with an attribute object (whose `src` may be present or absent),
or a bare attribute-less element, parsed as a plain string with no `$`
object at all. -/
inductive IconEntry where
  | attrs : Option String → IconEntry
  | bare : IconEntry
  deriving DecidableEq

mutual
/-- A manifest node with attribute-faithful icon entries and its platform
subtrees. -/
inductive INode where
  | mk : List IconEntry → IForest → INode
/-- A sequence of platform subtrees of attribute-faithful nodes. -/
inductive IForest where
  | nil : IForest
  | cons : INode → IForest → IForest
end

/-- The body of `obj.icon.forEach(i => i.$.src && icons.push(i.$.src))`
over one icon array: entries with an attribute object contribute their
`src` when it is truthy and are skipped otherwise; the first bare entry
makes `i.$.src` throw a TypeError (reading a property of `undefined`),
aborting the walk. -/
def srcsE : List IconEntry → Except JsError (List String)
  | [] => Except.ok []
  | IconEntry.bare :: _ =>
    Except.error (JsError.typeError "cannot read src of undefined")
  | IconEntry.attrs attr :: rest =>
    match srcOf attr with
    | some s =>
      match srcsE rest with
      | Except.ok r => Except.ok (s :: r)
      | Except.error e => Except.error e
    | none => srcsE rest

mutual
/-- The recursive icon walk with the thrown TypeError made explicit: own
icons first (the exception, if any, arises there), then every platform
subtree in order. -/
def findIconsE : INode → Except JsError (List String)
  | INode.mk icons platforms =>
    match srcsE icons with
    | Except.error e => Except.error e
    | Except.ok own =>
      match findIconsEF platforms with
      | Except.error e => Except.error e
      | Except.ok rest => Except.ok (own ++ rest)
/-- The fallible walk over a sequence of subtrees. -/
def findIconsEF : IForest → Except JsError (List String)
  | IForest.nil => Except.ok []
  | IForest.cons n rest =>
    match findIconsE n with
    | Except.error e => Except.error e
    | Except.ok own =>
      match findIconsEF rest with
      | Except.error e => Except.error e
      | Except.ok r => Except.ok (own ++ r)
end

mutual
/-- Number of nodes in an attribute-faithful tree. -/
def sizeIN : INode → Nat
  | INode.mk _ platforms => 1 + sizeIF platforms
/-- Number of nodes in an attribute-faithful forest. -/
def sizeIF : IForest → Nat
  | IForest.nil => 0
  | IForest.cons n rest => sizeIN n + sizeIF rest
end

/-- A concrete manifest whose icon entries all carry attribute objects: a
root icon with a path, one with `src` absent, one with `src` empty, and a
platform icon. -/
def exampleIconDoc : INode :=
  INode.mk [IconEntry.attrs (some "res/icon.png"), IconEntry.attrs none,
      IconEntry.attrs (some "")]
    (IForest.cons
      (INode.mk [IconEntry.attrs (some "res/ios/icon.png")] IForest.nil)
      IForest.nil)

/-! Lemmas about `splitFirst` -/

theorem splitFirst_some_decomp {pat s a b : List Char}
    (h : splitFirst pat s = some (a, b)) : s = a ++ pat ++ b := by
  induction s generalizing a b with
  | nil =>
    simp only [splitFirst] at h
    split at h
    · rename_i hp
      rw [ List.isPrefixOf_iff_prefix, List.prefix_nil] at hp
      cases h
      simp [hp]
    · cases h
  | cons c rest ih =>
    simp only [splitFirst] at h
    split at h
    · rename_i hp
      rw [ List.isPrefixOf_iff_prefix] at hp
      obtain ⟨t, ht⟩ := hp
      cases h
      simp only [ List.nil_append]
      rw [← ht, List.drop_left]
    · cases hres : splitFirst pat rest with
      | none => rw [hres] at h; cases h
      | some p =>
        rw [hres] at h
        cases p with
        | mk a' b' =>
          simp only [Option.map_some'] at h
          cases h
          have := ih hres
          simp [this]

theorem splitFirst_length {pat s a b : List Char}
    (h : splitFirst pat s = some (a, b)) :
    s.length = a.length + pat.length + b.length := by
  have := splitFirst_some_decomp h
  subst this
  simp only [ List.length_append]

theorem occurs_of_splitFirst_some {pat s a b : List Char}
    (h : splitFirst pat s = some (a, b)) : pat <:+: s := by
  rw [splitFirst_some_decomp h]
  exact List.infix_append _ _ _

theorem splitFirst_none_of_not_occurs {pat s : List Char}
    (h : ¬ pat <:+: s) : splitFirst pat s = none := by
  cases hres : splitFirst pat s with
  | none => rfl
  | some p =>
    cases p with
    | mk a b => exact absurd (occurs_of_splitFirst_some hres) h

theorem not_occurs_head_of_splitFirst {pat s a b : List Char}
    (hne : pat ≠ []) (h : splitFirst pat s = some (a, b)) : ¬ pat <:+: a := by
  induction s generalizing a b with
  | nil =>
    simp only [splitFirst] at h
    split at h
    · rename_i hp
      rw [ List.isPrefixOf_iff_prefix, List.prefix_nil] at hp
      exact absurd hp hne
    · cases h
  | cons c rest ih =>
    simp only [splitFirst] at h
    split at h
    · cases h
      intro hin
      rcases hin with ⟨u, v, huv⟩
      have : (u ++ pat ++ v).length = 0 := by rw [huv]; rfl
      simp only [ List.length_append] at this
      have : pat.length = 0 := by omega
      exact hne ( List.length_eq_zero.mp this)
    · rename_i hnp
      cases hres : splitFirst pat rest with
      | none => rw [hres] at h; cases h
      | some p =>
        rw [hres] at h
        cases p with
        | mk a' b' =>
          simp only [Option.map_some'] at h
          cases h
          intro hin
          rcases ( List.infix_cons_iff).mp hin with hpre | hinf
          · have : pat <+: c :: rest := by
              have hd := splitFirst_some_decomp hres
              refine hpre.trans ⟨pat ++ b, ?_⟩
              rw [hd]; simp
            rw [← List.isPrefixOf_iff_prefix] at this
            exact hnp this
          · exact ih hres hinf

theorem splitFirst_place {pat a b : List Char}
    (hb : ∀ k, k < pat.length → 0 < k → ¬ pat.drop k <+: pat)
    (ha : ¬ pat <:+: a) :
    splitFirst pat (a ++ pat ++ b) = some (a, b) := by
  have hne : pat ≠ [] := fun h => ha (h ▸ List.nil_infix)
  induction a with
  | nil =>
    rcases hp : pat with _ | ⟨pc, pt⟩
    · exact absurd hp hne
    · have hshape : ([] : List Char) ++ (pc :: pt) ++ b = pc :: (pt ++ b) := by
        simp
      rw [hshape]
      have hpref : (pc :: pt).isPrefixOf (pc :: (pt ++ b)) = true := by
        rw [ List.isPrefixOf_iff_prefix]
        exact ⟨b, by simp⟩
      simp only [splitFirst]
      rw [if_pos hpref]
      have hdr : pc :: (pt ++ b) = (pc :: pt) ++ b := by simp
      rw [hdr, List.drop_left]
  | cons c a' ih =>
    have ha' : ¬ pat <:+: a' := fun h => ha ( List.infix_cons h)
    have hshape : (c :: a') ++ pat ++ b = c :: (a' ++ pat ++ b) := by simp
    rw [hshape]
    have hnp : ¬ pat.isPrefixOf (c :: (a' ++ pat ++ b)) = true := by
      intro hp
      rw [ List.isPrefixOf_iff_prefix] at hp
      rcases le_or_lt pat.length (a'.length + 1) with hle | hlt
      · rw [ List.prefix_iff_eq_take] at hp
        rw [show c :: (a' ++ pat ++ b) = (c :: a') ++ (pat ++ b) by simp] at hp
        rw [ List.take_append_of_le_length (by simpa using hle)] at hp
        exact ha
          ( List.IsPrefix.isInfix
            ( List.prefix_iff_eq_take.mpr (by simpa using hp)))
      · rw [ List.prefix_iff_eq_take] at hp
        rw [show c :: (a' ++ pat ++ b) = (c :: a') ++ (pat ++ b) by simp] at hp
        rw [ List.take_append_eq_append_take,
          List.take_of_length_le (by simp only [ List.length_cons]; omega),
          List.take_append_of_le_length (by omega)] at hp
        have hdrop : pat.drop (a'.length + 1) =
            pat.take (pat.length - (a'.length + 1)) := by
          conv_lhs => rw [hp]
          rw [show a'.length + 1 = (c :: a').length by simp, List.drop_left]
        exact hb (a'.length + 1) hlt (Nat.succ_pos _)
          (hdrop ▸ List.take_prefix _ _)
    have hrec := ih ha'
    simp only [splitFirst]
    rw [if_neg hnp, hrec]
    rfl

theorem occurs_append_cases {p x y : List Char} (h : p <:+: x ++ y) :
    p <:+: x ∨ p <:+: y ∨
      ∃ k, k < p.length ∧ 0 < k ∧ p.take k <:+ x ∧ p.drop k <+: y := by
  induction x with
  | nil => right; left; simpa using h
  | cons c x' ih =>
    rw [ List.cons_append, List.infix_cons_iff] at h
    rcases h with hpre | hinf
    · rcases le_or_lt p.length (x'.length + 1) with hle | hlt
      · left
        rw [ List.prefix_iff_eq_take] at hpre
        rw [show c :: (x' ++ y) = (c :: x') ++ y from rfl] at hpre
        rw [ List.take_append_of_le_length (by simpa using hle)] at hpre
        exact List.IsPrefix.isInfix ( List.prefix_iff_eq_take.mpr hpre)
      · right; right
        rw [ List.prefix_iff_eq_take] at hpre
        rw [show c :: (x' ++ y) = (c :: x') ++ y from rfl] at hpre
        rw [ List.take_append_eq_append_take,
          List.take_of_length_le (by simp only [ List.length_cons]; omega)] at hpre
        refine ⟨x'.length + 1, hlt, Nat.succ_pos _, ?_, ?_⟩
        · rw [show p.take (x'.length + 1) = p.take (c :: x').length by simp]
          conv_lhs => rw [hpre]
          rw [ List.take_left]
        · rw [show p.drop (x'.length + 1) = p.drop (c :: x').length by simp]
          conv_lhs => rw [hpre]
          rw [ List.drop_left]
          exact List.take_prefix _ _
    · rcases ih hinf with h1 | h2 | ⟨k, hkl, hk0, hsuf, hpre2⟩
      · exact Or.inl ( List.infix_cons h1)
      · exact Or.inr (Or.inl h2)
      · exact Or.inr (Or.inr ⟨k, hkl, hk0,
          List.suffix_cons_iff.mpr (Or.inr hsuf), hpre2⟩)

theorem not_occurs_append_dropSide {p x y : List Char}
    (hx : ¬ p <:+: x) (hy : ¬ p <:+: y)
    (hstrad : ∀ k, k < p.length → 0 < k → ¬ p.drop k <+: y) :
    ¬ p <:+: x ++ y := by
  intro h
  rcases occurs_append_cases h with h1 | h2 | ⟨k, h3, h4, _, h6⟩
  exacts [hx h1, hy h2, hstrad k h3 h4 h6]

theorem not_occurs_append_takeSide {p x y : List Char}
    (hx : ¬ p <:+: x) (hy : ¬ p <:+: y)
    (hstrad : ∀ k, k < p.length → 0 < k → ¬ p.take k <:+ x) :
    ¬ p <:+: x ++ y := by
  intro h
  rcases occurs_append_cases h with h1 | h2 | ⟨k, h3, h4, h5, _⟩
  exacts [hx h1, hy h2, hstrad k h3 h4 h5]

theorem shrinkPrefixOfAppend {u C b : List Char} (h : u <+: C ++ b)
    (hlen : u.length ≤ C.length) : u <+: C := by
  rw [ List.prefix_iff_eq_take] at h ⊢
  rw [ List.take_append_of_le_length hlen] at h
  exact h

theorem not_occurs_append3 {p a C b : List Char}
    (hlen : p.length ≤ C.length)
    (ha : ¬ p <:+: a) (hC : ¬ p <:+: C) (hb : ¬ p <:+: b)
    (hdrop : ∀ k, k < p.length → 0 < k → ¬ p.drop k <+: C)
    (htake : ∀ k, k < p.length → 0 < k → ¬ p.take k <:+ C) :
    ¬ p <:+: a ++ C ++ b := by
  have hCb : ¬ p <:+: C ++ b := not_occurs_append_takeSide hC hb htake
  rw [ List.append_assoc]
  refine not_occurs_append_dropSide ha hCb ?_
  intro k hkl hk0 hpre
  refine hdrop k hkl hk0 (shrinkPrefixOfAppend hpre ?_)
  have : (p.drop k).length = p.length - k := by simp
  omega

theorem not_occurs_left {p x y : List Char} (h : ¬ p <:+: x ++ y) :
    ¬ p <:+: x :=
  fun hx => h (hx.trans ( List.IsPrefix.isInfix ( List.prefix_append x y)))

theorem not_occurs_right {p x y : List Char} (h : ¬ p <:+: x ++ y) :
    ¬ p <:+: y :=
  fun hy => h (hy.trans ( List.IsSuffix.isInfix ( List.suffix_append x y)))

/-! Lemmas about `removeBlocks` and `countOcc` -/

theorem removeBlocksAux_of_none {fuel : Nat} {s : List Char}
    (h : splitFirst startMarker s = none) : removeBlocksAux fuel s = s := by
  cases fuel <;> simp [removeBlocksAux, h]

theorem removeBlocks_of_not_occurs {s : List Char}
    (h : ¬ startMarker <:+: s) : removeBlocks s = s :=
  removeBlocksAux_of_none (splitFirst_none_of_not_occurs h)

theorem splitFirst_nil_of_ne {pat : List Char} (h : pat ≠ []) :
    splitFirst pat [] = none := by
  apply splitFirst_none_of_not_occurs
  intro hin
  rcases hin with ⟨u, v, huv⟩
  have : (u ++ pat ++ v).length = 0 := by rw [huv]; rfl
  simp only [ List.length_append] at this
  exact h ( List.length_eq_zero.mp (by omega))

theorem removeBlocksAux_step {fuel : Nat} {s a rest mid rest2 : List Char}
    (h1 : splitFirst startMarker s = some (a, rest))
    (h2 : splitFirst endMarker rest = some (mid, rest2)) :
    removeBlocksAux (fuel + 1) s = a ++ removeBlocksAux fuel rest2 := by
  simp only [removeBlocksAux, h1, h2]

theorem removeBlocksAux_fuel {f1 f2 : Nat} {s : List Char}
    (h1 : s.length ≤ f1) (h2 : s.length ≤ f2) :
    removeBlocksAux f1 s = removeBlocksAux f2 s := by
  induction f1 generalizing f2 s with
  | zero =>
    have hs : s = [] := List.length_eq_zero.mp (Nat.le_zero.mp h1)
    subst hs
    have hn : splitFirst startMarker [] = none :=
      splitFirst_nil_of_ne (by decide)
    rw [removeBlocksAux_of_none hn, removeBlocksAux_of_none hn]
  | succ f1 ih =>
    cases f2 with
    | zero =>
      have hs : s = [] := List.length_eq_zero.mp (Nat.le_zero.mp h2)
      subst hs
      have hn : splitFirst startMarker [] = none :=
        splitFirst_nil_of_ne (by decide)
      rw [removeBlocksAux_of_none hn, removeBlocksAux_of_none hn]
    | succ f2 =>
      cases hs : splitFirst startMarker s with
      | none => rw [removeBlocksAux_of_none hs, removeBlocksAux_of_none hs]
      | some p =>
        obtain ⟨a, rest⟩ := p
        cases he : splitFirst endMarker rest with
        | none =>
          show removeBlocksAux (f1 + 1) s = removeBlocksAux (f2 + 1) s
          simp only [removeBlocksAux, hs, he]
        | some q =>
          obtain ⟨mid, rest2⟩ := q
          rw [removeBlocksAux_step hs he, removeBlocksAux_step hs he]
          have l1 := splitFirst_length hs
          have l2 := splitFirst_length he
          have hS : 0 < startMarker.length := by decide
          have hE : 0 < endMarker.length := by decide
          congr 1
          refine ih ?_ ?_ <;> omega

theorem removeBlocks_decomp {a mid b : List Char}
    (hSa : ¬ startMarker <:+: a) (hEmid : ¬ endMarker <:+: mid) :
    removeBlocks (a ++ startMarker ++ (mid ++ endMarker ++ b)) =
      a ++ removeBlocks b := by
  have sborder : ∀ k, k < startMarker.length → 0 < k →
      ¬ startMarker.drop k <+: startMarker := by decide
  have eborder : ∀ k, k < endMarker.length → 0 < k →
      ¬ endMarker.drop k <+: endMarker := by decide
  have h1 : splitFirst startMarker (a ++ startMarker ++ (mid ++ endMarker ++ b))
      = some (a, mid ++ endMarker ++ b) := splitFirst_place sborder hSa
  have h2 : splitFirst endMarker (mid ++ endMarker ++ b) = some (mid, b) :=
    splitFirst_place eborder hEmid
  have hS : 0 < startMarker.length := by decide
  have hE : 0 < endMarker.length := by decide
  have hlen := splitFirst_length h1
  have hlen2 := splitFirst_length h2
  have hpos : 0 < (a ++ startMarker ++ (mid ++ endMarker ++ b)).length := by
    omega
  obtain ⟨f, hf⟩ : ∃ f, (a ++ startMarker ++ (mid ++ endMarker ++ b)).length
      = f + 1 :=
    ⟨(a ++ startMarker ++ (mid ++ endMarker ++ b)).length - 1, by omega⟩
  unfold removeBlocks
  rw [hf, removeBlocksAux_step h1 h2]
  congr 1
  exact removeBlocksAux_fuel (by omega) (by omega)

theorem countOccAux_of_none {pat : List Char} {fuel : Nat} {s : List Char}
    (h : splitFirst pat s = none) : countOccAux pat fuel s = 0 := by
  cases fuel <;> simp [countOccAux, h]

theorem countOcc_eq_zero_of_not_occurs {pat s : List Char}
    (h : ¬ pat <:+: s) : countOcc pat s = 0 :=
  countOccAux_of_none (splitFirst_none_of_not_occurs h)

theorem countOcc_eq_one {pat x y : List Char}
    (hb : ∀ k, k < pat.length → 0 < k → ¬ pat.drop k <+: pat)
    (hne : pat ≠ [])
    (hx : ¬ pat <:+: x) (hy : ¬ pat <:+: y) :
    countOcc pat (x ++ pat ++ y) = 1 := by
  have h1 : splitFirst pat (x ++ pat ++ y) = some (x, y) :=
    splitFirst_place hb hx
  have hp : 0 < pat.length := List.length_pos.mpr hne
  have hlen := splitFirst_length h1
  obtain ⟨f, hf⟩ : ∃ f, (x ++ pat ++ y).length = f + 1 :=
    ⟨(x ++ pat ++ y).length - 1, by omega⟩
  unfold countOcc
  rw [hf]
  simp only [countOccAux, h1]
  rw [countOccAux_of_none (splitFirst_none_of_not_occurs hy)]

/-! The injection operation: general facts -/

theorem injBlock_eq_marked (debug safeArea : Bool) :
    injBlock debug safeArea =
      startMarker ++ midBlock debug safeArea ++ endMarker := by
  simp [injBlock, midBlock, List.append_assoc]

theorem endMarker_not_in_midBlock (debug safeArea : Bool) :
    ¬ endMarker <:+: midBlock debug safeArea := by
  cases debug <;> cases safeArea <;> decide

theorem headClose_borderFree :
    ∀ k, k < headClose.length → 0 < k → ¬ headClose.drop k <+: headClose := by
  decide

theorem inject_on_fresh {debug safeArea : Bool} {m a b : List Char}
    (hm : splitFirst headClose m = some (a, b))
    (hS : ¬ startMarker <:+: m) :
    inject debug safeArea m =
      a ++ injBlock debug safeArea ++ '\n' :: (headClose ++ b) := by
  unfold inject replaceFirst
  rw [removeBlocks_of_not_occurs hS, hm]
  simp [ List.append_assoc]

theorem inject_over_block (debug safeArea oldDebug oldSafeArea : Bool)
    {a b : List Char}
    (hHa : ¬ headClose <:+: a)
    (hSa : ¬ startMarker <:+: a) (hSb : ¬ startMarker <:+: b) :
    inject debug safeArea
        (a ++ injBlock oldDebug oldSafeArea ++ '\n' :: (headClose ++ b)) =
      a ++ '\n' :: (injBlock debug safeArea ++ '\n' :: (headClose ++ b)) := by
  have hshape : a ++ injBlock oldDebug oldSafeArea ++ '\n' :: (headClose ++ b)
      = a ++ startMarker ++
        (midBlock oldDebug oldSafeArea ++ endMarker ++ ('\n' :: (headClose ++ b))) := by
    rw [injBlock_eq_marked]
    simp [ List.append_assoc]
  rw [hshape]
  unfold inject
  rw [removeBlocks_decomp hSa (endMarker_not_in_midBlock oldDebug oldSafeArea)]
  have htail : ¬ startMarker <:+: ('\n' :: (headClose ++ b)) := by
    rw [show ('\n' :: (headClose ++ b)) = ('\n' :: headClose) ++ b by simp]
    exact not_occurs_append_takeSide (by decide) hSb (by decide)
  rw [removeBlocks_of_not_occurs htail]
  have hn : ¬ headClose <:+: (a ++ ['\n']) :=
    not_occurs_append_dropSide hHa (by decide) (by decide)
  have hsp : splitFirst headClose (a ++ '\n' :: (headClose ++ b))
      = some (a ++ ['\n'], b) := by
    have hplace :=
      @splitFirst_place headClose (a ++ ['\n']) b headClose_borderFree hn
    rw [show (a ++ ['\n']) ++ headClose ++ b = a ++ '\n' :: (headClose ++ b) by
      simp] at hplace
    exact hplace
  unfold replaceFirst
  rw [hsp]
  simp [ List.append_assoc]

/-! Claim C1 -/

/-- Claim C1 (counterexample).  Applying `inject` a second time with the
same options to the already-injected output is not byte-identical to a
single application: on `"<head></head>"` with both options off, the second
application yields a different document (an extra newline appears before
the injection region). -/
theorem inject_not_idempotent_cex :
    inject false false (inject false false ("<head></head>").data) ≠
      inject false false (("<head></head>").data) := by
  decide

/-- Claim C1 (amended).  For a markup document whose first head-closing
marker splits it as `a ++ "</head>" ++ b` and which contains no start
marker, a first `inject` produces `a ++ block ++ "\n</head>" ++ b`, and a
second `inject` with the same options produces the same document except
for one extra newline inserted immediately before the injection region —
in particular the result of the second application is exactly one byte
longer, so the operation is idempotent only up to that newline. -/
theorem inject_twice_adds_newline (debug safeArea : Bool) (m a b : List Char)
    (hm : splitFirst headClose m = some (a, b))
    (hS : ¬ startMarker <:+: m) :
    inject debug safeArea m =
      a ++ injBlock debug safeArea ++ '\n' :: (headClose ++ b) ∧
    inject debug safeArea (inject debug safeArea m) =
      a ++ '\n' :: (injBlock debug safeArea ++ '\n' :: (headClose ++ b)) ∧
    (inject debug safeArea (inject debug safeArea m)).length =
      (inject debug safeArea m).length + 1 := by
  have hd := splitFirst_some_decomp hm
  have hHa : ¬ headClose <:+: a :=
    not_occurs_head_of_splitFirst (by decide) hm
  have hSa : ¬ startMarker <:+: a := by
    intro hx
    apply hS
    rw [hd, List.append_assoc]
    exact hx.trans ( List.IsPrefix.isInfix ( List.prefix_append _ _))
  have hSb : ¬ startMarker <:+: b := by
    intro hx
    apply hS
    rw [hd, List.append_assoc]
    exact hx.trans
      ( List.IsSuffix.isInfix
        (( List.suffix_append headClose b).trans
          ( List.suffix_append a (headClose ++ b))))
  have h1 := @inject_on_fresh debug safeArea m a b hm hS
  have h2 := inject_over_block debug safeArea debug safeArea hHa hSa hSb
  refine ⟨h1, ?_, ?_⟩
  · rw [h1, h2]
  · rw [h1, h2]
    simp only [ List.length_append, List.length_cons]
    omega


/-- Claim C1 (witness for the amended theorem).  The amended statement
evaluated on a concrete page: hypotheses hold and the two applications
differ by exactly the extra newline. -/
theorem inject_twice_adds_newline_witness :
    splitFirst headClose
        ("<html><head><title>app</title></head><body>x</body></html>").data =
      some (("<html><head><title>app</title>").data,
        ("<body>x</body></html>").data) ∧
    (¬ startMarker <:+:
        ("<html><head><title>app</title></head><body>x</body></html>").data) ∧
    (inject true false
        ("<html><head><title>app</title></head><body>x</body></html>").data =
      ("<html><head><title>app</title>").data ++ injBlock true false ++
        '\n' :: (headClose ++ ("<body>x</body></html>").data) ∧
    inject true false (inject true false
        ("<html><head><title>app</title></head><body>x</body></html>").data) =
      ("<html><head><title>app</title>").data ++
        '\n' :: (injBlock true false ++
          '\n' :: (headClose ++ ("<body>x</body></html>").data)) ∧
    (inject true false (inject true false
        ("<html><head><title>app</title></head><body>x</body></html>").data)).length =
      (inject true false
        ("<html><head><title>app</title></head><body>x</body></html>").data).length
        + 1) :=
  ⟨by decide, by decide,
    inject_twice_adds_newline true false
      ("<html><head><title>app</title></head><body>x</body></html>").data
      ("<html><head><title>app</title>").data
      ("<body>x</body></html>").data (by decide) (by decide)⟩

/-! Claim C2 -/

/-- Claim C2 (counterexample).  On a document with no head-closing marker,
`inject` does not fail: it returns the document unchanged — precisely the
"returning the document without the injected region" behaviour the claim
rules out (the output contains no injection region at all). -/
theorem inject_no_target_cex :
    inject true true ("<body>app</body>").data = ("<body>app</body>").data ∧
    ¬ startMarker <:+: inject true true ("<body>app</body>").data := by
  constructor
  · decide
  · decide

/-- Claim C2 (amended).  When the markup document contains no head-closing
marker (and no stray start marker), `inject` raises no error of any kind:
it returns the document unchanged, without any injected region. -/
theorem inject_no_target_returns_input (debug safeArea : Bool)
    (m : List Char)
    (hS : ¬ startMarker <:+: m) (hH : ¬ headClose <:+: m) :
    inject debug safeArea m = m := by
  unfold inject replaceFirst
  rw [removeBlocks_of_not_occurs hS, splitFirst_none_of_not_occurs hH]

/-- Claim C2 (witness for the amended theorem). -/
theorem inject_no_target_returns_input_witness :
    (¬ startMarker <:+: ("<body>ok</body>").data) ∧
    (¬ headClose <:+: ("<body>ok</body>").data) ∧
    inject false true ("<body>ok</body>").data = ("<body>ok</body>").data :=
  ⟨by decide, by decide,
    inject_no_target_returns_input false true ("<body>ok</body>").data
      (by decide) (by decide)⟩

/-! Claim C9 -/

theorem startMarker_borderFree :
    ∀ k, k < startMarker.length → 0 < k →
      ¬ startMarker.drop k <+: startMarker := by
  decide

theorem endMarker_borderFree :
    ∀ k, k < endMarker.length → 0 < k →
      ¬ endMarker.drop k <+: endMarker := by
  decide

/-- Claim C9 (confirmed).  Re-running `inject` with debug on and safe-area
off over a document that already carries an injection region holding only
the safe-area snippet yields a document with exactly one injection region
(each marker occurs exactly once), whose content is exactly the debug
snippet: the debug snippet occurs in the result and the safe-area snippet
does not.  The document is quantified as `a ++ region ++ "\n</head>" ++ b`
with the markers and snippets not occurring in the surrounding text. -/
theorem inject_reconfigure (a b : List Char)
    (hHa : ¬ headClose <:+: a)
    (hSa : ¬ startMarker <:+: a) (hSb : ¬ startMarker <:+: b)
    (hEa : ¬ endMarker <:+: a) (hEb : ¬ endMarker <:+: b)
    (hVa : ¬ safeAreaSnippet <:+: (a ++ ['\n']))
    (hVb : ¬ safeAreaSnippet <:+: b) :
    inject true false
        (a ++ injBlock false true ++ '\n' :: (headClose ++ b)) =
      a ++ '\n' :: (injBlock true false ++ '\n' :: (headClose ++ b)) ∧
    countOcc startMarker
        (a ++ '\n' :: (injBlock true false ++ '\n' :: (headClose ++ b))) = 1 ∧
    countOcc endMarker
        (a ++ '\n' :: (injBlock true false ++ '\n' :: (headClose ++ b))) = 1 ∧
    vconsoleSnippet <:+:
        (a ++ '\n' :: (injBlock true false ++ '\n' :: (headClose ++ b))) ∧
    ¬ safeAreaSnippet <:+:
        (a ++ '\n' :: (injBlock true false ++ '\n' :: (headClose ++ b))) := by
  refine ⟨inject_over_block true false false true hHa hSa hSb, ?_, ?_, ?_, ?_⟩
  · have hre : a ++ '\n' :: (injBlock true false ++ '\n' :: (headClose ++ b))
        = (a ++ ['\n']) ++ startMarker ++
          (midBlock true false ++ endMarker ++ ('\n' :: (headClose ++ b))) := by
      rw [injBlock_eq_marked]
      simp [ List.append_assoc]
    rw [hre]
    refine countOcc_eq_one startMarker_borderFree (by decide) ?_ ?_
    · exact not_occurs_append_dropSide hSa (by decide) (by decide)
    · have hgr : midBlock true false ++ endMarker ++ ('\n' :: (headClose ++ b))
          = (midBlock true false ++ endMarker ++ ('\n' :: headClose)) ++ b := by
        simp [ List.append_assoc]
      rw [hgr]
      exact not_occurs_append_takeSide (by decide) hSb (by decide)
  · have hre : a ++ '\n' :: (injBlock true false ++ '\n' :: (headClose ++ b))
        = (a ++ ('\n' :: (startMarker ++ midBlock true false))) ++ endMarker ++
          (('\n' :: headClose) ++ b) := by
      rw [injBlock_eq_marked]
      simp [ List.append_assoc]
    rw [hre]
    refine countOcc_eq_one endMarker_borderFree (by decide) ?_ ?_
    · exact not_occurs_append_dropSide hEa (by decide) (by decide)
    · exact not_occurs_append_takeSide (by decide) hEb (by decide)
  · refine ⟨a ++ '\n' :: (startMarker ++ ['\n']),
      endMarker ++ '\n' :: (headClose ++ b), ?_⟩
    simp [injBlock, List.append_assoc]
  · have hre : a ++ '\n' :: (injBlock true false ++ '\n' :: (headClose ++ b))
        = (a ++ ['\n']) ++ (injBlock true false ++ ('\n' :: headClose)) ++ b := by
      simp [ List.append_assoc]
    rw [hre]
    exact not_occurs_append3 (by decide) hVa (by decide) hVb
      (by decide) (by decide)

/-- Claim C9 (witness).  The reconfiguration theorem evaluated on a
concrete page whose existing region holds only the safe-area snippet. -/
theorem inject_reconfigure_witness :
    (¬ headClose <:+: ("<html><head>").data) ∧
    (¬ startMarker <:+: ("<html><head>").data) ∧
    (¬ startMarker <:+: ("<body>x</body></html>").data) ∧
    (¬ endMarker <:+: ("<html><head>").data) ∧
    (¬ endMarker <:+: ("<body>x</body></html>").data) ∧
    (¬ safeAreaSnippet <:+: (("<html><head>").data ++ ['\n'])) ∧
    (¬ safeAreaSnippet <:+: ("<body>x</body></html>").data) ∧
    (inject true false
        (("<html><head>").data ++ injBlock false true ++
          '\n' :: (headClose ++ ("<body>x</body></html>").data)) =
      ("<html><head>").data ++
        '\n' :: (injBlock true false ++
          '\n' :: (headClose ++ ("<body>x</body></html>").data)) ∧
    countOcc startMarker
        (("<html><head>").data ++
          '\n' :: (injBlock true false ++
            '\n' :: (headClose ++ ("<body>x</body></html>").data))) = 1 ∧
    countOcc endMarker
        (("<html><head>").data ++
          '\n' :: (injBlock true false ++
            '\n' :: (headClose ++ ("<body>x</body></html>").data))) = 1 ∧
    vconsoleSnippet <:+:
        (("<html><head>").data ++
          '\n' :: (injBlock true false ++
            '\n' :: (headClose ++ ("<body>x</body></html>").data))) ∧
    ¬ safeAreaSnippet <:+:
        (("<html><head>").data ++
          '\n' :: (injBlock true false ++
            '\n' :: (headClose ++ ("<body>x</body></html>").data)))) :=
  ⟨by decide, by decide, by decide, by decide, by decide, by decide, by decide,
    inject_reconfigure ("<html><head>").data ("<body>x</body></html>").data
      (by decide) (by decide) (by decide) (by decide) (by decide) (by decide)
      (by decide)⟩

/-! Claim C5 -/

theorem mergePlugins_names (M : List Plugin) (R : List String) :
    (mergePlugins M R).map Plugin.name =
      M.map Plugin.name ++
        R.filter (fun r => !((M.map Plugin.name).contains r)) := by
  simp [mergePlugins, List.map_map]
  exact List.map_id'' (fun x => rfl) _

/-- Claim C5 (counterexample).  The claim quantifies over every
required-name sequence R, but the code computes the set of already-present
names once, before the append loop: with the duplicate-free manifest `[]`
and R repeating one name, both copies are appended and the resulting
plugin names are no longer pairwise distinct. -/
theorem mergePlugins_dup_required_cex :
    (mergePlugins []
        ["cordova-plugin-vibration", "cordova-plugin-vibration"]).map
      Plugin.name = ["cordova-plugin-vibration", "cordova-plugin-vibration"] ∧
    ¬ ((mergePlugins []
        ["cordova-plugin-vibration", "cordova-plugin-vibration"]).map
      Plugin.name).Nodup := by
  constructor
  · decide
  · decide

/-- Claim C5 (amended).  For a manifest with pairwise-distinct plugin names
and a sequence R of pairwise-distinct required names, the merge keeps the
names pairwise distinct, a second merge with the same R changes nothing,
the pre-existing entries stay untouched as a prefix (never reordered or
removed), and the appended entries are exactly the not-yet-present names
of R in the order of R (a sublist of R). -/
theorem mergePlugins_props (M : List Plugin) (R : List String)
    (hM : (M.map Plugin.name).Nodup) (hR : R.Nodup) :
    ((mergePlugins M R).map Plugin.name).Nodup ∧
    mergePlugins (mergePlugins M R) R = mergePlugins M R ∧
    M <+: mergePlugins M R ∧
    (mergePlugins M R).map Plugin.name =
      M.map Plugin.name ++
        R.filter (fun r => !((M.map Plugin.name).contains r)) ∧
    (R.filter (fun r => !((M.map Plugin.name).contains r))).Sublist R := by
  have hnames := mergePlugins_names M R
  refine ⟨?_, ?_,
    ⟨(R.filter (fun r => !((M.map Plugin.name).contains r))).map
      (fun p => (⟨p, "latest"⟩ : Plugin)), rfl⟩, hnames, List.filter_sublist R⟩
  · rw [hnames]
    refine hM.append (hR.filter _) ?_
    intro x hx hx2
    rw [ List.mem_filter] at hx2
    have h2 : x ∉ M.map Plugin.name := by simpa using hx2.2
    exact h2 hx
  · have hsub : ∀ r ∈ R, r ∈ (mergePlugins M R).map Plugin.name := by
      intro r hr
      rw [hnames]
      by_cases hmem : r ∈ M.map Plugin.name
      · exact List.mem_append_left _ hmem
      · refine List.mem_append_right _ ?_
        rw [ List.mem_filter]
        refine ⟨hr, ?_⟩
        simpa using hmem
    have hfilter : R.filter
        (fun r => !(((mergePlugins M R).map Plugin.name).contains r)) = [] := by
      rw [ List.filter_eq_nil_iff]
      intro a ha
      simpa using hsub a ha
    have hstep : mergePlugins (mergePlugins M R) R =
        (mergePlugins M R) ++
          (R.filter (fun r =>
            !(((mergePlugins M R).map Plugin.name).contains r))).map
            (fun p => (⟨p, "latest"⟩ : Plugin)) := rfl
    rw [hstep, hfilter]
    simp

/-- Claim C5 (witness).  The amended merge theorem evaluated on a concrete
manifest and required-name sequence. -/
theorem mergePlugins_props_witness :
    ((([(⟨"cordova-plugin-statusbar", "1.0"⟩ : Plugin)]).map
        Plugin.name).Nodup) ∧
    (["cordova-plugin-vibration", "cordova-plugin-statusbar"]).Nodup ∧
    (((mergePlugins [(⟨"cordova-plugin-statusbar", "1.0"⟩ : Plugin)]
        ["cordova-plugin-vibration", "cordova-plugin-statusbar"]).map
        Plugin.name).Nodup ∧
    mergePlugins
        (mergePlugins [(⟨"cordova-plugin-statusbar", "1.0"⟩ : Plugin)]
          ["cordova-plugin-vibration", "cordova-plugin-statusbar"])
        ["cordova-plugin-vibration", "cordova-plugin-statusbar"] =
      mergePlugins [(⟨"cordova-plugin-statusbar", "1.0"⟩ : Plugin)]
        ["cordova-plugin-vibration", "cordova-plugin-statusbar"] ∧
    [(⟨"cordova-plugin-statusbar", "1.0"⟩ : Plugin)] <+:
      mergePlugins [(⟨"cordova-plugin-statusbar", "1.0"⟩ : Plugin)]
        ["cordova-plugin-vibration", "cordova-plugin-statusbar"] ∧
    (mergePlugins [(⟨"cordova-plugin-statusbar", "1.0"⟩ : Plugin)]
        ["cordova-plugin-vibration", "cordova-plugin-statusbar"]).map
      Plugin.name =
      ([(⟨"cordova-plugin-statusbar", "1.0"⟩ : Plugin)]).map Plugin.name ++
        (["cordova-plugin-vibration", "cordova-plugin-statusbar"]).filter
          (fun r =>
            !((([(⟨"cordova-plugin-statusbar", "1.0"⟩ : Plugin)]).map
              Plugin.name).contains r)) ∧
    ((["cordova-plugin-vibration", "cordova-plugin-statusbar"]).filter
        (fun r =>
          !((([(⟨"cordova-plugin-statusbar", "1.0"⟩ : Plugin)]).map
            Plugin.name).contains r))).Sublist
      ["cordova-plugin-vibration", "cordova-plugin-statusbar"]) :=
  ⟨by decide, by decide,
    mergePlugins_props [(⟨"cordova-plugin-statusbar", "1.0"⟩ : Plugin)]
      ["cordova-plugin-vibration", "cordova-plugin-statusbar"]
      (by decide) (by decide)⟩

/-! Claim C4 -/

/-- Claim C4 (counterexample).  When no artifact name matches the target,
the lookup yields nothing and the subsequent property access fails as a
generic TypeError — an unclassified crash caught only by the top-level
handler, not a distinguishable artifact-not-found condition as the claim
requires. -/
theorem artifact_missing_cex :
    resolveArtifact
        [(⟨"other-apk", "u1"⟩ : Artifact), (⟨"my-app-apk", "u2"⟩ : Artifact)]
        "missing-apk" = none ∧
    artifactUrl
        [(⟨"other-apk", "u1"⟩ : Artifact), (⟨"my-app-apk", "u2"⟩ : Artifact)]
        "missing-apk" =
      Except.error (JsError.typeError
        "cannot read archive_download_url of undefined") := by
  constructor
  · rfl
  · rfl

/-- Claim C4 (amended).  Resolution does select the first entry whose name
exactly equals the target; but when no entry matches, the code raises no
`ArtifactNotFound` condition — the lookup is empty and the following
property access fails as a generic TypeError. -/
theorem artifact_resolution_first_match (pre : List Artifact) (a : Artifact)
    (post : List Artifact) (t : String)
    (hname : a.name = t) (hpre : ∀ x ∈ pre, x.name ≠ t) :
    resolveArtifact (pre ++ a :: post) t = some a ∧
    (∀ arts : List Artifact, (∀ x ∈ arts, x.name ≠ t) →
      artifactUrl arts t =
        Except.error (JsError.typeError
          "cannot read archive_download_url of undefined")) := by
  constructor
  · induction pre with
    | nil =>
      exact List.find?_cons_of_pos _ (by simp [hname])
    | cons x pre ih =>
      have hx : x.name ≠ t := hpre x (by simp)
      have hrest : ∀ y ∈ pre, y.name ≠ t := fun y hy => hpre y (by simp [hy])
      show ((x :: (pre ++ a :: post)).find? (fun y => y.name == t)) = some a
      rw [ List.find?_cons_of_neg _ (by simp [hx])]
      exact ih hrest
  · intro arts hall
    unfold artifactUrl resolveArtifact
    rw [ List.find?_eq_none.mpr (by intro x hx; simp [hall x hx])]

/-- Claim C4 (witness).  Scenario D: the listing `other-apk, my-app-apk`
with target `my-app-apk` resolves to the second entry, and a listing with
no match yields the generic TypeError. -/
theorem artifact_resolution_first_match_witness :
    ((⟨"my-app-apk", "u2"⟩ : Artifact).name = "my-app-apk") ∧
    (∀ x ∈ [(⟨"other-apk", "u1"⟩ : Artifact)], x.name ≠ "my-app-apk") ∧
    (resolveArtifact
        ([(⟨"other-apk", "u1"⟩ : Artifact)] ++
          (⟨"my-app-apk", "u2"⟩ : Artifact) :: []) "my-app-apk" =
      some (⟨"my-app-apk", "u2"⟩ : Artifact) ∧
    (∀ arts : List Artifact, (∀ x ∈ arts, x.name ≠ "my-app-apk") →
      artifactUrl arts "my-app-apk" =
        Except.error (JsError.typeError
          "cannot read archive_download_url of undefined"))) :=
  ⟨rfl, by decide,
    artifact_resolution_first_match [(⟨"other-apk", "u1"⟩ : Artifact)]
      (⟨"my-app-apk", "u2"⟩ : Artifact) [] "my-app-apk" rfl (by decide)⟩

/-! Claim C3 -/

/-- Claim C3 (counterexample).  When extraction fails, the rejected promise
propagates before `fs.unlinkSync` runs: the run ends in the error handler
and the temporary archive still exists, contradicting removal on every
path. -/
theorem fetchAndExtract_failure_leaves_temp_cex :
    (fetchAndExtract false).2 = Except.error "extract failed" ∧
    tempExistsAfter (fetchAndExtract false).1 = true ∧
    FsAction.unlinkTemp ∉ (fetchAndExtract false).1 := by
  refine ⟨rfl, rfl, ?_⟩
  decide

/-- Claim C3 (amended).  The temporary archive is removed exactly when
extraction succeeds: on the success path the trace ends with the unlink
and the archive is gone; on the failure path the error propagates first,
no unlink is performed, and the archive remains. -/
theorem fetchAndExtract_cleanup_only_on_success :
    tempExistsAfter (fetchAndExtract true).1 = false ∧
    (fetchAndExtract true).1 =
      [FsAction.writeTemp, FsAction.extract, FsAction.unlinkTemp] ∧
    (fetchAndExtract true).2 = Except.ok () ∧
    tempExistsAfter (fetchAndExtract false).1 = true ∧
    (fetchAndExtract false).1 = [FsAction.writeTemp, FsAction.extract] ∧
    (fetchAndExtract false).2 = Except.error "extract failed" := by
  refine ⟨rfl, rfl, rfl, rfl, rfl, rfl⟩

/-! Claims C7 and C8: the polling monitor -/

theorem progressStep_lt {p : ℚ} (hp : p < 95) : progressStep p < 95 := by
  unfold progressStep
  rw [if_pos hp]
  linarith

theorem le_progressStep (p : ℚ) : p ≤ progressStep p := by
  unfold progressStep
  split
  · rename_i h
    have h1 : (0 : ℚ) ≤ (95 - p) * (15 / 100) :=
      mul_nonneg (by linarith) (by norm_num)
    linarith
  · exact le_refl p

theorem runMonitor_fail {r : PollResponse} {rest : List PollResponse} {p : ℚ}
    (hf : (r.conclusion == some "failure") = true) :
    runMonitor (r :: rest) p = ([], Outcome.failed, 1) := by
  simp [runMonitor, hf]

theorem runMonitor_done {r : PollResponse} {rest : List PollResponse} {p : ℚ}
    (hf : (r.conclusion == some "failure") = false)
    (hc : (r.status == "completed") = true) :
    runMonitor (r :: rest) p = ([progressStep p, 100], Outcome.success, 1) := by
  simp [runMonitor, hf, hc]

theorem runMonitor_cont {r : PollResponse} {rest : List PollResponse} {p : ℚ}
    (hf : (r.conclusion == some "failure") = false)
    (hc : (r.status == "completed") = false) :
    runMonitor (r :: rest) p =
      (progressStep p :: (runMonitor rest (progressStep p)).1,
       (runMonitor rest (progressStep p)).2.1,
       (runMonitor rest (progressStep p)).2.2 + 1) := by
  simp [runMonitor, hf, hc]

theorem runMonitor_invariant (resps : List PollResponse) :
    ∀ p : ℚ, p < 95 →
      List.Chain' (fun x y => x ≤ y) (p :: (runMonitor resps p).1) ∧
      (∀ e ∈ (runMonitor resps p).1.dropLast, e < 95) ∧
      ((runMonitor resps p).2.1 = Outcome.success →
        (runMonitor resps p).1.getLast? = some 100) ∧
      ((runMonitor resps p).2.1 ≠ Outcome.success →
        ∀ e ∈ (runMonitor resps p).1, e < 95) := by
  induction resps with
  | nil =>
    intro p hp
    refine ⟨by simp [runMonitor], by simp [runMonitor], ?_, ?_⟩
    · intro h
      simp [runMonitor] at h
    · intro _
      simp [runMonitor]
  | cons r rest ih =>
    intro p hp
    have hq : progressStep p < 95 := progressStep_lt hp
    have hle : p ≤ progressStep p := le_progressStep p
    cases hf : r.conclusion == some "failure" with
    | true =>
      rw [runMonitor_fail hf]
      refine ⟨by simp, by simp, ?_, by simp⟩
      intro h
      simp at h
    | false =>
      cases hc : r.status == "completed" with
      | true =>
        rw [runMonitor_done hf hc]
        refine ⟨?_, ?_, ?_, ?_⟩
        · refine List.chain'_cons.mpr ⟨hle, ?_⟩
          refine List.chain'_cons.mpr ⟨by linarith, by simp⟩
        · intro e he
          simp at he
          rw [he]
          exact hq
        · intro _
          rfl
        · intro h
          exact absurd rfl h
      | false =>
        rw [runMonitor_cont hf hc]
        obtain ⟨ihc, ihd, ihs, ihns⟩ := ih (progressStep p) hq
        refine ⟨?_, ?_, ?_, ?_⟩
        · exact List.chain'_cons.mpr ⟨hle, ihc⟩
        · intro e he
          cases hres : (runMonitor rest (progressStep p)).1 with
          | nil => rw [hres] at he; simp at he
          | cons y ys =>
            rw [hres] at he
            rw [ List.dropLast_cons₂] at he
            rcases List.mem_cons.mp he with h1 | h2
            · rw [h1]; exact hq
            · exact ihd e (by rw [hres]; exact h2)
        · intro hsucc
          have hlast := ihs hsucc
          cases hres : (runMonitor rest (progressStep p)).1 with
          | nil => rw [hres] at hlast; simp at hlast
          | cons y ys =>
            rw [hres] at hlast
            show (progressStep p :: y :: ys).getLast? = some 100
            rw [ List.getLast?_cons_cons]
            exact hlast
        · intro hns e he
          rcases List.mem_cons.mp he with h1 | h2
          · rw [h1]; exact hq
          · exact ihns hns e h2

/-- Claim C7 (confirmed; the update rule `estimate += (95 - estimate) * 0.15`
is modelled in exact rational arithmetic).  Starting from the initial
estimate 0, the emitted estimate sequence is non-decreasing, every value
emitted before the final one is strictly below 100, the success line emits
exactly 100, and in a session that never observes completion every emitted
value stays strictly below 100. -/
theorem monitor_progress_estimate (resps : List PollResponse) :
    List.Chain' (fun x y => x ≤ y) ((0 : ℚ) :: (runMonitor resps 0).1) ∧
    (∀ e ∈ (runMonitor resps 0).1.dropLast, e < 100) ∧
    ((runMonitor resps 0).2.1 = Outcome.success →
      (runMonitor resps 0).1.getLast? = some 100) ∧
    ((runMonitor resps 0).2.1 ≠ Outcome.success →
      ∀ e ∈ (runMonitor resps 0).1, e < 100) := by
  obtain ⟨h1, h2, h3, h4⟩ := runMonitor_invariant resps 0 (by norm_num)
  refine ⟨h1, fun e he => lt_trans (h2 e he) (by norm_num), h3,
    fun ho e he => lt_trans (h4 ho e he) (by norm_num)⟩

/-- Claim C8 (confirmed).  As soon as a poll response reports conclusion
`failure`, the monitor performs no further poll: the number of polls is
exactly the failing response's position, whatever responses would have
followed, and the surfaced outcome is the failure outcome, distinct from
both the success outcome and the still-polling outcome. -/
theorem monitor_failure_short_circuit (pre : List PollResponse)
    (r : PollResponse) (post : List PollResponse)
    (hpre : ∀ x ∈ pre, x.conclusion ≠ some "failure" ∧ x.status ≠ "completed")
    (hr : r.conclusion = some "failure") :
    (runMonitor (pre ++ r :: post) 0).2.2 = pre.length + 1 ∧
    (runMonitor (pre ++ r :: post) 0).2.1 = Outcome.failed ∧
    Outcome.failed ≠ Outcome.success ∧
    Outcome.failed ≠ Outcome.pending := by
  have key : ∀ (l : List PollResponse) (p : ℚ),
      (∀ x ∈ l, x.conclusion ≠ some "failure" ∧ x.status ≠ "completed") →
      (runMonitor (l ++ r :: post) p).2.2 = l.length + 1 ∧
      (runMonitor (l ++ r :: post) p).2.1 = Outcome.failed := by
    intro l
    induction l with
    | nil =>
      intro p _
      rw [ List.nil_append, runMonitor_fail (by simp [hr])]
      exact ⟨rfl, rfl⟩
    | cons x l ih =>
      intro p hall
      have hx := hall x (by simp)
      rw [ List.cons_append,
        runMonitor_cont (by simp [hx.1]) (by simp [hx.2])]
      obtain ⟨hn, ho⟩ := ih (progressStep p) (fun y hy => hall y (by simp [hy]))
      constructor
      · show (runMonitor (l ++ r :: post) (progressStep p)).2.2 + 1
          = (x :: l).length + 1
        rw [hn]
        simp
      · exact ho
  obtain ⟨h1, h2⟩ := key pre 0 hpre
  exact ⟨h1, h2, by decide, by decide⟩

/-- Claim C8 (witness).  A concrete session: one in-flight poll, then a
failure response, with one more response behind it that is never fetched:
two polls in total, outcome `failed`. -/
theorem monitor_failure_short_circuit_witness :
    (∀ x ∈ [(⟨"queued", none⟩ : PollResponse)],
      x.conclusion ≠ some "failure" ∧ x.status ≠ "completed") ∧
    ((⟨"in_progress", some "failure"⟩ : PollResponse).conclusion =
      some "failure") ∧
    ((runMonitor ([(⟨"queued", none⟩ : PollResponse)] ++
        (⟨"in_progress", some "failure"⟩ : PollResponse) ::
          [(⟨"completed", some "success"⟩ : PollResponse)]) 0).2.2 =
      ([(⟨"queued", none⟩ : PollResponse)]).length + 1 ∧
    (runMonitor ([(⟨"queued", none⟩ : PollResponse)] ++
        (⟨"in_progress", some "failure"⟩ : PollResponse) ::
          [(⟨"completed", some "success"⟩ : PollResponse)]) 0).2.1 =
      Outcome.failed ∧
    Outcome.failed ≠ Outcome.success ∧
    Outcome.failed ≠ Outcome.pending) :=
  ⟨by decide, rfl,
    monitor_failure_short_circuit [(⟨"queued", none⟩ : PollResponse)]
      (⟨"in_progress", some "failure"⟩ : PollResponse)
      [(⟨"completed", some "success"⟩ : PollResponse)]
      (by decide) rfl⟩

/-! Claims C6 and C10: the icon walk -/

theorem sizeN_pos (n : XNode) : 0 < sizeN n := by
  cases n with
  | mk ic ps => simp [sizeN]

theorem sizeF_forestAppend : ∀ f g : XForest,
    sizeF (forestAppend f g) = sizeF f + sizeF g := by
  have key : ∀ k, ∀ f g : XForest, sizeF f ≤ k →
      sizeF (forestAppend f g) = sizeF f + sizeF g := by
    intro k
    induction k with
    | zero =>
      intro f g hf
      cases f with
      | nil => simp [forestAppend, sizeF]
      | cons n rest =>
        exfalso
        have := sizeN_pos n
        simp [sizeF] at hf
        omega
    | succ k ih =>
      intro f g hf
      cases f with
      | nil => simp [forestAppend, sizeF]
      | cons n rest =>
        have hrest : sizeF rest ≤ k := by
          have := sizeN_pos n
          simp [sizeF] at hf
          omega
        simp [forestAppend, sizeF, ih rest g hrest]
        omega
  intro f g
  exact key (sizeF f) f g (le_refl _)

theorem findIconsF_forestAppend : ∀ f g : XForest,
    findIconsF (forestAppend f g) = findIconsF f ++ findIconsF g := by
  have key : ∀ k, ∀ f g : XForest, sizeF f ≤ k →
      findIconsF (forestAppend f g) = findIconsF f ++ findIconsF g := by
    intro k
    induction k with
    | zero =>
      intro f g hf
      cases f with
      | nil => simp [forestAppend, findIconsF]
      | cons n rest =>
        exfalso
        have := sizeN_pos n
        simp [sizeF] at hf
        omega
    | succ k ih =>
      intro f g hf
      cases f with
      | nil => simp [forestAppend, findIconsF]
      | cons n rest =>
        have hrest : sizeF rest ≤ k := by
          have := sizeN_pos n
          simp [sizeF] at hf
          omega
        simp [forestAppend, findIconsF, ih rest g hrest]
  intro f g
  exact key (sizeF f) f g (le_refl _)

theorem collectIconPathsSpecAux_adequate : ∀ (fuel : Nat) (f : XForest),
    sizeF f ≤ fuel → collectIconPathsSpecAux fuel f = findIconsF f := by
  intro fuel
  induction fuel with
  | zero =>
    intro f hf
    cases f with
    | nil => simp [collectIconPathsSpecAux, findIconsF]
    | cons n rest =>
      exfalso
      have := sizeN_pos n
      simp [sizeF] at hf
      omega
  | succ fuel ih =>
    intro f hf
    cases f with
    | nil => simp [collectIconPathsSpecAux, findIconsF]
    | cons n rest =>
      cases n with
      | mk ic ps =>
        have hsz : sizeF (forestAppend ps rest) ≤ fuel := by
          rw [sizeF_forestAppend]
          simp [sizeF, sizeN] at hf
          omega
        simp only [collectIconPathsSpecAux]
        rw [ih (forestAppend ps rest) hsz, findIconsF_forestAppend]
        simp [findIconsF, findIcons, List.append_assoc]

/-- Claim C6 (confirmed).  The recursive icon walk of the code returns
exactly the depth-first document-order traversal of the manifest tree
(own icons, then each platform subtree in order, at any depth, duplicates
preserved), and on the concrete nested manifest with a duplicated path it
returns the five paths in document order, duplicate included. -/
theorem findIcons_docOrder :
    (∀ n : XNode,
      findIcons n = collectIconPathsSpec (XForest.cons n XForest.nil)) ∧
    findIcons exampleWidget =
      ["res/icon.png", "res/android/icon.png", "res/icon.png",
        "res/nested.png", "res/ios/icon.png"] := by
  constructor
  · intro n
    unfold collectIconPathsSpec
    rw [collectIconPathsSpecAux_adequate _ _ (le_refl _)]
    simp [findIconsF]
  · rfl

theorem srcOf_some_ne_empty (attr : Option String) (s : String)
    (h : srcOf attr = some s) : s ≠ "" := by
  cases attr with
  | none => simp [srcOf] at h
  | some t =>
    simp only [srcOf] at h
    split at h
    · cases h
    · rename_i ht
      cases h
      exact ht

theorem srcsE_insert_none : ∀ ic1 ic2 : List IconEntry,
    srcsE (ic1 ++ IconEntry.attrs none :: ic2) = srcsE (ic1 ++ ic2) := by
  intro ic1 ic2
  induction ic1 with
  | nil => simp [srcsE, srcOf]
  | cons c rest ih =>
    cases c with
    | bare => simp [srcsE]
    | attrs a =>
      simp only [List.cons_append, srcsE, List.append_eq]
      rw [ih]

theorem srcsE_insert_empty : ∀ ic1 ic2 : List IconEntry,
    srcsE (ic1 ++ IconEntry.attrs (some "") :: ic2) = srcsE (ic1 ++ ic2) := by
  intro ic1 ic2
  induction ic1 with
  | nil => simp [srcsE, srcOf]
  | cons c rest ih =>
    cases c with
    | bare => simp [srcsE]
    | attrs a =>
      simp only [List.cons_append, srcsE, List.append_eq]
      rw [ih]

theorem srcsE_ok_no_empty : ∀ (ics : List IconEntry) (r : List String),
    srcsE ics = Except.ok r → "" ∉ r := by
  intro ics
  induction ics with
  | nil =>
    intro r h
    simp only [srcsE, Except.ok.injEq] at h
    subst h
    simp
  | cons c rest ih =>
    intro r h
    cases c with
    | bare => simp [srcsE] at h
    | attrs a =>
      simp only [srcsE] at h
      cases hsrc : srcOf a with
      | none =>
        rw [hsrc] at h
        exact ih r h
      | some s =>
        rw [hsrc] at h
        cases hr : srcsE rest with
        | error e => rw [hr] at h; simp at h
        | ok rtail =>
          rw [hr] at h
          simp only [Except.ok.injEq] at h
          subst h
          intro hmem
          rcases List.mem_cons.mp hmem with h1 | h2
          · exact srcOf_some_ne_empty a s hsrc h1.symm
          · exact ih rtail hr h2

theorem srcsE_bare_error : ∀ ics : List IconEntry, IconEntry.bare ∈ ics →
    srcsE ics =
      Except.error (JsError.typeError "cannot read src of undefined") := by
  intro ics
  induction ics with
  | nil => intro h; simp at h
  | cons c rest ih =>
    intro h
    cases c with
    | bare => simp [srcsE]
    | attrs a =>
      have hmem : IconEntry.bare ∈ rest := by
        rcases List.mem_cons.mp h with h1 | h2
        · simp at h1
        · exact h2
      simp only [srcsE]
      rw [ih hmem]
      cases srcOf a <;> simp

theorem sizeIN_pos (n : INode) : 0 < sizeIN n := by
  cases n with
  | mk ics ps => simp [sizeIN]

theorem findIconsE_no_empty_key : ∀ k : Nat,
    (∀ (n : INode) (r : List String),
      sizeIN n ≤ k → findIconsE n = Except.ok r → "" ∉ r) ∧
    (∀ (f : IForest) (r : List String),
      sizeIF f ≤ k → findIconsEF f = Except.ok r → "" ∉ r) := by
  intro k
  induction k with
  | zero =>
    constructor
    · intro n r hn _
      exfalso
      have := sizeIN_pos n
      omega
    · intro f r hf h
      cases f with
      | nil =>
        simp only [findIconsEF, Except.ok.injEq] at h
        subst h
        simp
      | cons n rest =>
        exfalso
        have := sizeIN_pos n
        simp [sizeIF] at hf
        omega
  | succ k ih =>
    have hnode : ∀ (n : INode) (r : List String),
        sizeIN n ≤ k + 1 → findIconsE n = Except.ok r → "" ∉ r := by
      intro n r hn h
      cases n with
      | mk ics ps =>
        simp only [findIconsE] at h
        cases hs : srcsE ics with
        | error e => rw [hs] at h; simp at h
        | ok own =>
          rw [hs] at h
          cases hp : findIconsEF ps with
          | error e => rw [hp] at h; simp at h
          | ok rest =>
            rw [hp] at h
            simp only [Except.ok.injEq] at h
            subst h
            intro hmem
            rcases List.mem_append.mp hmem with h1 | h2
            · exact srcsE_ok_no_empty ics own hs h1
            · have hps : sizeIF ps ≤ k := by
                simp [sizeIN] at hn
                omega
              exact ih.2 ps rest hps hp h2
    refine ⟨hnode, ?_⟩
    intro f r hf h
    cases f with
    | nil =>
      simp only [findIconsEF, Except.ok.injEq] at h
      subst h
      simp
    | cons n rest =>
      simp only [findIconsEF] at h
      cases hn : findIconsE n with
      | error e => rw [hn] at h; simp at h
      | ok own =>
        rw [hn] at h
        cases hr : findIconsEF rest with
        | error e => rw [hr] at h; simp at h
        | ok rst =>
          rw [hr] at h
          simp only [Except.ok.injEq] at h
          subst h
          intro hmem
          rcases List.mem_append.mp hmem with h1 | h2
          · refine hnode n own ?_ hn h1
            simp [sizeIF] at hf
            omega
          · have hrest : sizeIF rest ≤ k := by
              have := sizeIN_pos n
              simp [sizeIF] at hf
              omega
            exact ih.2 rest rst hrest hr h2

/-- Claim C10 (counterexample).  A manifest whose icon array holds an
attribute-less icon element: xml2js delivers it with no attribute object,
`i.$.src` throws, and the walk errors with a TypeError instead of
contributing no entry and causing no error as the claim states. -/
theorem findIconsE_bare_icon_throws_cex :
    findIconsE
        (INode.mk [IconEntry.attrs (some "res/icon.png"), IconEntry.bare]
          IForest.nil) =
      Except.error (JsError.typeError "cannot read src of undefined") := by
  rfl

/-- Claim C10 (amended).  Icon elements that carry an attribute object but
whose `src` attribute is absent or empty are silently skipped: removing
such an element anywhere in a node icon array leaves the walk unchanged,
and every successfully returned path list contains only non-empty `src`
values.  An icon element with no attributes at all, however, has no
attribute object, so reading its `src` throws a TypeError and the walk
errors instead of skipping it. -/
theorem findIconsE_skips_empty_src :
    (∀ (ic1 ic2 : List IconEntry) (ps : IForest),
      findIconsE (INode.mk (ic1 ++ IconEntry.attrs none :: ic2) ps) =
        findIconsE (INode.mk (ic1 ++ ic2) ps)) ∧
    (∀ (ic1 ic2 : List IconEntry) (ps : IForest),
      findIconsE (INode.mk (ic1 ++ IconEntry.attrs (some "") :: ic2) ps) =
        findIconsE (INode.mk (ic1 ++ ic2) ps)) ∧
    (∀ (n : INode) (r : List String),
      findIconsE n = Except.ok r → (r.contains "") = false) ∧
    (∀ (ics : List IconEntry) (ps : IForest), IconEntry.bare ∈ ics →
      findIconsE (INode.mk ics ps) =
        Except.error (JsError.typeError "cannot read src of undefined")) := by
  refine ⟨?_, ?_, ?_, ?_⟩
  · intro ic1 ic2 ps
    simp only [findIconsE, srcsE_insert_none]
  · intro ic1 ic2 ps
    simp only [findIconsE, srcsE_insert_empty]
  · intro n r h
    have hne := ( findIconsE_no_empty_key (sizeIN n)).1 n r (le_refl _) h
    simpa using hne
  · intro ics ps h
    simp [findIconsE, srcsE_bare_error ics h]

/-- Claim C10 (witness).  The amended theorem evaluated concretely: a
manifest whose absent-src and empty-src icons all carry attribute objects
walks successfully to the two real paths (no empty string among them),
and an icon array holding a bare entry makes the walk throw. -/
theorem findIconsE_skips_empty_src_witness :
    findIconsE exampleIconDoc =
      Except.ok ["res/icon.png", "res/ios/icon.png"] ∧
    ((["res/icon.png", "res/ios/icon.png"] : List String).contains "")
      = false ∧
    IconEntry.bare ∈ [IconEntry.attrs (some "res/a.png"), IconEntry.bare] ∧
    findIconsE
        (INode.mk [IconEntry.attrs (some "res/a.png"), IconEntry.bare]
          IForest.nil) =
      Except.error (JsError.typeError "cannot read src of undefined") :=
  ⟨rfl,
    findIconsE_skips_empty_src.2.2.1 exampleIconDoc
      ["res/icon.png", "res/ios/icon.png"] rfl,
    by decide,
    findIconsE_skips_empty_src.2.2.2
      [IconEntry.attrs (some "res/a.png"), IconEntry.bare] IForest.nil
      (by decide)⟩
